import Mathlib

/-!
# Verification of `primality.py`

A shallow embedding of the prime sieve, primality oracle, factorizer,
divisor functions and multiplicative-function framework of
`primality.py`, together with proofs of the specified properties.

Python's machine-level details are modelled as follows:

* Python integers are arbitrary precision; they become `Int` (or `Nat`
  where the source value is provably non-negative).
* The module-level value `Maybe = float("inf")` is used as a third truth
  value; classification results become the three-valued type `Ternary`.
* `d` and `sigma` return either an integer, `float("inf")` or
  `float("nan")`; these become the type `NumVal`.  Python's `==` on
  these values (NaN compares unequal to everything, including itself)
  is `pyEq`.
* The class state (`odd_primes_list`, `small_primes_set`, `last_tested`)
  becomes the structure `SieveState`, threaded explicitly: a method that
  mutates the state returns the new state as part of its result.
* `while` loops become recursion.  The sieving loop of `Primes.sieve`
  steps `last_tested` up by 2 each iteration, so it is well-founded
  recursion on `stop - last_tested`.  The loop of `extract_power`
  divides out by `p`, so it is well-founded on the shrinking argument,
  with the guard `2 ≤ p ∧ 0 < n` marking the domain on which the Python
  loop terminates at all.  The outer factoring loop of `factor_slow`
  terminates only because sieve growth eventually reaches the smallest
  prime factor of the cofactor; it is modelled with an explicit
  iteration budget (`fuel`) equal to the cofactor, and sufficiency of
  that budget is one of the proved theorems.
-/

/-! ## Value types -/

/-- The Python-level truth values `True`, `False` and `Maybe`
(`Maybe = float("inf")` in the source). -/
inductive Ternary where
  | yes : Ternary
  | no : Ternary
  | maybe : Ternary
deriving DecidableEq, Repr

/-- The values produced by the number-theoretic functions `d` and
`sigma`: an integer, `float("inf")` or `float("nan")`. -/
inductive NumVal where
  | int (z : Int) : NumVal
  | inf : NumVal
  | nan : NumVal
deriving DecidableEq, Repr

/-- Python `==` on `NumVal`.  IEEE semantics: `float("nan")` compares
unequal to every value, itself included; `float("inf")` equals itself;
an integer equals itself. -/
def pyEq : NumVal → NumVal → Bool
  | .int a, .int b => a == b
  | .inf, .inf => true
  | _, _ => false

/-- The result of `Primes.factor_slow`: either the zero sentinel (the
Python function returns the integer `0`), or a list whose head is the
unit `1`/`-1` and whose remaining entries are the pairs `[p, e]`. -/
inductive Factorization where
  | zero : Factorization
  | of (unit : Int) (powers : List (Nat × Nat)) : Factorization
deriving DecidableEq, Repr

/-! ## An executable primality test used by the specifications

The invariant of the sieve table is expressed with `Nat.Prime`; to keep
the invariant decidable (so that concrete states can be checked by
`decide`) we use a boolean trial-division test and prove it equivalent
to `Nat.Prime`. -/

/-- Boolean primality by trial division over all smaller numbers. -/
def natPrimeB (n : Nat) : Bool :=
  decide (2 ≤ n) && (List.range n).all fun m => decide (m < 2) || decide (n % m ≠ 0)

theorem natPrimeB_iff {n : Nat} : natPrimeB n = true ↔ n.Prime := by
  rw [Nat.prime_def_lt]
  simp only [natPrimeB, Bool.and_eq_true, decide_eq_true_eq, List.all_eq_true,
    List.mem_range, Bool.or_eq_true]
  constructor
  · rintro ⟨h2, hall⟩
    refine ⟨h2, fun m hm hdvd => ?_⟩
    rcases hall m hm with hlt | hmod
    · obtain ⟨k, rfl⟩ := hdvd
      interval_cases m
      · omega
      · rfl
    · obtain ⟨k, rfl⟩ := hdvd
      exact absurd (Nat.mul_mod_right m k) hmod
  · rintro ⟨h2, hall⟩
    refine ⟨h2, fun m hm => ?_⟩
    by_cases hm2 : m < 2
    · exact Or.inl hm2
    · refine Or.inr fun hmod => ?_
      have hdvd : m ∣ n := Nat.dvd_of_mod_eq_zero hmod
      have := hall m hm hdvd
      omega

/-! ## The sieve state -/

/-- The three class variables of `class Primes`. -/
structure SieveState where
  odd_primes_list : List Nat
  small_primes_set : Finset Nat
  last_tested : Nat
deriving DecidableEq

/-- The initial values of the class variables:
`odd_primes_list = [3, 5, 7]`, `small_primes_set = {2, 3, 5, 7}`,
`last_tested = 9`. -/
def initState : SieveState :=
  { odd_primes_list := [3, 5, 7]
    small_primes_set := {2, 3, 5, 7}
    last_tested := 9 }

/-- One iteration of the `while stop > cls.last_tested` loop of
`Primes.sieve`: advance `last_tested` by 2, test it for divisibility by
every known odd prime (the `for p in cls.odd_primes_list` loop with its
`break` is the short-circuiting `List.all`), and record it when no
known odd prime divides it. -/
def sieveStep (s : SieveState) : SieveState :=
  if s.odd_primes_list.all fun p => decide ((s.last_tested + 2) % p ≠ 0) then
    { odd_primes_list := s.odd_primes_list ++ [s.last_tested + 2]
      small_primes_set := insert (s.last_tested + 2) s.small_primes_set
      last_tested := s.last_tested + 2 }
  else
    { s with last_tested := s.last_tested + 2 }

theorem sieveStep_last_tested (s : SieveState) :
    (sieveStep s).last_tested = s.last_tested + 2 := by
  unfold sieveStep
  split <;> rfl

/-- The `while stop > cls.last_tested` loop of `Primes.sieve`. -/
def sieveLoop (stop : Nat) (s : SieveState) : SieveState :=
  if stop > s.last_tested then sieveLoop stop (sieveStep s) else s
termination_by stop - s.last_tested
decreasing_by
  rw [sieveStep_last_tested]; omega

theorem sieveLoop_eq (stop : Nat) (s : SieveState) :
    sieveLoop stop s =
      if stop > s.last_tested then sieveLoop stop (sieveStep s) else s := by
  rw [sieveLoop]

/-- `Primes.sieve(stop)`.  `if not stop: return` is a no-op exactly when
`stop == 0`; otherwise `stop = abs(stop)` and the loop runs. -/
def Primes.sieve (stop : Int) (s : SieveState) : SieveState :=
  if stop = 0 then s else sieveLoop stop.natAbs s

/-- The candidates `p` kept in `odd_primes_list`: odd primes up to and
including `n`, in ascending order.  This is the reference value that the
sieve invariant compares the concrete list against. -/
def oddPrimesUpTo (n : Nat) : List Nat :=
  (List.range (n + 1)).filter fun p => natPrimeB p && decide (p % 2 = 1)

/-- The sieve-table invariant: `last_tested` is odd and at least its
initial value 9, `odd_primes_list` is exactly the ascending list of odd
primes `≤ last_tested`, and `small_primes_set` is exactly `{2}` together
with those odd primes. -/
def SieveInv (s : SieveState) : Prop :=
  s.last_tested % 2 = 1 ∧ 9 ≤ s.last_tested ∧
  s.odd_primes_list = oddPrimesUpTo s.last_tested ∧
  s.small_primes_set = insert 2 (oddPrimesUpTo s.last_tested).toFinset

instance (s : SieveState) : Decidable (SieveInv s) := by
  unfold SieveInv; infer_instance

/-! ## The primality oracle -/

/-- `Primes.is_irreducible(n, sieve)`.  The returned `Ternary` is the
Python return value (`True`/`False`/`Maybe`); the returned state is the
class state after the call (mutated only by the `self.sieve(n)` call in
the `sieve=True` branch). -/
def Primes.is_irreducible (s : SieveState) (n : Int) (sieve : Bool) :
    Ternary × SieveState :=
  let m := n.natAbs
  if sieve then
    let s2 := Primes.sieve (m : Int) s
    (if m ∈ s2.small_primes_set then .yes else .no, s2)
  else
    (if m ∈ s.small_primes_set then .yes
     else if m ≤ s.last_tested then .no
     else if m % 2 = 0 then .no
     else if s.odd_primes_list.any (fun p => decide (m % p = 0)) then .no
     else if m < s.last_tested * s.last_tested then .yes
     else .maybe, s)

/-- `Primes.is_prime(n, sieve)`: identical to `is_irreducible` except
that `0` is declared prime. -/
def Primes.is_prime (s : SieveState) (n : Int) (sieve : Bool) :
    Ternary × SieveState :=
  if n = 0 then (.yes, s) else Primes.is_irreducible s n sieve

/-- `Primes.is_unit(n)`. -/
def Primes.is_unit (n : Int) : Bool :=
  n = -1 || n = 1

/-- The value lookup `{True: False, False: True, Maybe: Maybe}[...]`
in `Primes.is_composite`. -/
def Ternary.flip : Ternary → Ternary
  | .yes => .no
  | .no => .yes
  | .maybe => .maybe

/-- `Primes.is_composite(n, sieve)`. -/
def Primes.is_composite (s : SieveState) (n : Int) (sieve : Bool) :
    Ternary × SieveState :=
  if Primes.is_unit n then (.no, s)
  else
    let r := Primes.is_prime s n sieve
    (r.1.flip, r.2)

/-! ## The factorizer -/

/-- `Primes.extract_power(n, p)`: repeatedly divide `n` by `p`,
returning the exponent and the final quotient.  The Python `while`
loop terminates exactly when `2 ≤ p` and `0 < n` (for `p ≤ 1` or
`n = 0` with `p ∣ n` it would run forever); the guard marks that
domain, and every call site satisfies it. -/
def Primes.extract_power (n p : Nat) : Nat × Nat :=
  if h : 2 ≤ p ∧ 0 < n ∧ n % p = 0 then
    let r := Primes.extract_power (n / p) p
    (r.1 + 1, r.2)
  else (0, n)
termination_by n
decreasing_by
  exact Nat.div_lt_self h.2.1 (by omega)

theorem extract_power_eq (n p : Nat) : Primes.extract_power n p =
    if 2 ≤ p ∧ 0 < n ∧ n % p = 0 then
      ((Primes.extract_power (n / p) p).1 + 1, (Primes.extract_power (n / p) p).2)
    else (0, n) := by
  rw [Primes.extract_power]
  rfl

/-- The golden ratio `phi = (1 + sqrt(5)) / 2` as computed by the
source in IEEE double precision; `phiNum / 2 ^ 52` is the exact
rational value of that double (`sqrt(5)` is correctly rounded to
`5035177455121576 / 2 ^ 51`; adding 1 and halving are exact). -/
def phiNum : Nat := 7286977268806824

/-- `int(self.last_tested * phi)`: the next stop value of the
progressive sieve growth in `factor_slow`.  The product
`last_tested * phi` is evaluated here in exact rational arithmetic and
truncated; the IEEE rounding of the double product (which can differ
only when the product lies within one ulp of an integer) is not
modelled. -/
def phiStop (lt : Nat) : Nat := lt * phiNum / 2 ^ 52

/-- The `for p in self.odd_primes_list` loop of `factor_slow`:
extract the power of each known odd prime in turn, appending `[p, e]`
for the primes that occur, returning early once the cofactor reaches
1. -/
def factorFor : List Nat → Nat → List (Nat × Nat) → Nat × List (Nat × Nat)
  | [], n, facs => (n, facs)
  | p :: ps, n, facs =>
    let r := Primes.extract_power n p
    let facs2 := if 0 < r.1 then facs ++ [(p, r.1)] else facs
    if r.2 = 1 then (r.2, facs2) else factorFor ps r.2 facs2

/-- The `while m < len(self.odd_primes_list)` loop of `factor_slow`:
extract powers of the primes at indices `m, m+1, ...` of the (grown)
list, breaking once the cofactor reaches 1.  Returns the final
`(m, n, factors)`. -/
def factorInner (lst : List Nat) (m n : Nat) (facs : List (Nat × Nat)) :
    Nat × Nat × List (Nat × Nat) :=
  if h : m < lst.length then
    let p := lst.get ⟨m, h⟩
    let r := Primes.extract_power n p
    let facs2 := if 0 < r.1 then facs ++ [(p, r.1)] else facs
    if r.2 = 1 then (m + 1, r.2, facs2)
    else factorInner lst (m + 1) r.2 facs2
  else (m, n, facs)
termination_by lst.length - m

/-- The `while n > 1` loop of `factor_slow`: grow the sieve to
`int(last_tested * phi)` and strip the newly found primes, repeating.
`fuel` is the iteration budget of the embedding; the termination
theorem shows a budget equal to the entering cofactor suffices.
Returns the final `(n, state, factors)`. -/
def factorOuter : Nat → Nat → Nat → SieveState → List (Nat × Nat) →
    Nat × SieveState × List (Nat × Nat)
  | 0, n, _, s, facs => (n, s, facs)
  | fuel + 1, n, m, s, facs =>
    if 1 < n then
      let s2 := Primes.sieve (phiStop s.last_tested : Int) s
      let r := factorInner s2.odd_primes_list m n facs
      factorOuter fuel r.2.1 r.1 s2 r.2.2
    else (n, s, facs)

/-- `Primes.factor_slow(n)`: the zero sentinel for `n = 0`; otherwise
the unit followed by the prime-power pairs, extracting 2 first, then
the known odd primes, then growing the sieve progressively.  The
returned state is the class state after the call. -/
def Primes.factor_slow (s : SieveState) (n : Int) :
    Factorization × SieveState :=
  if n = 0 then (.zero, s)
  else
    let unit : Int := if 0 < n then 1 else -1
    let a := n.natAbs
    if a = 1 then (.of unit [], s)
    else
      let r2 := Primes.extract_power a 2
      let facs0 : List (Nat × Nat) := if 0 < r2.1 then [(2, r2.1)] else []
      if r2.2 = 1 then (.of unit facs0, s)
      else
        let rFor := factorFor s.odd_primes_list r2.2 facs0
        let rOut := factorOuter rFor.1 rFor.1 s.odd_primes_list.length s rFor.2
        (.of unit rOut.2.2, rOut.2.1)

/-- `Primes.multiply(factors)`: 0 for the zero sentinel; otherwise the
running product starting at 1, taking in the unit and then each prime
power (built by repeated multiplication in the source). -/
def Primes.multiply : Factorization → Int
  | .zero => 0
  | .of u powers => powers.foldl (fun acc pe => acc * (pe.1 : Int) ^ pe.2) (1 * u)

/-! ## Divisor functions -/

/-- `Primes.d(n)`: the number of positive divisors.  `float("inf")`
for 0, 1 for units, otherwise the product of `e + 1` over the
factorization (the unit entry of the factor list is skipped by the
`isinstance(factor, list)` test, which the `Factorization` shape
encodes). -/
def Primes.d (s : SieveState) (n : Int) : NumVal × SieveState :=
  if n = 0 then (.inf, s)
  else
    let a := n.natAbs
    if a = 1 then (.int 1, s)
    else
      let r := Primes.factor_slow s (a : Int)
      match r.1 with
      | .zero => (.int 1, r.2)
      | .of _ powers =>
        (.int (powers.foldl (fun acc pe => acc * (pe.2 + 1 : Int)) 1), r.2)

/-- The per-prime-power term of `Primes.sigma`: `t, a = 0, 1`;
`m = p ** k`; `e + 1` iterations of `t += a; a *= m`.  This computes
`1 + p^k + p^(2k) + ... + p^(ek)`. -/
def sigmaTerm (p e k : Nat) : Nat :=
  ((List.range (e + 1)).foldl (fun ta _ => (ta.1 + ta.2, ta.2 * p ^ k)) (0, 1)).1

/-- `Primes.sigma(n, k)`: sum of `k`-th powers of the positive
divisors.  `k = 0` is delegated to `d` (before the zero test!);
`n = 0` gives `float("nan")`; a unit gives `(-1) ** k` for `n < 0`.
The source also accepts negative and non-integral `k` (producing
floats and complex numbers); those are outside this integer
embedding, so `k : Nat` here. -/
def Primes.sigma (s : SieveState) (n : Int) (k : Nat) : NumVal × SieveState :=
  if k = 0 then Primes.d s n
  else if n = 0 then (.nan, s)
  else
    let u : Int := if 0 < n then 1 else (-1) ^ k
    let a := n.natAbs
    if a = 1 then (.int u, s)
    else
      let r := Primes.factor_slow s (a : Int)
      match r.1 with
      | .zero => (.int u, r.2)
      | .of _ powers =>
        (.int (powers.foldl (fun acc pe => acc * (sigmaTerm pe.1 pe.2 k : Int)) u), r.2)

/-! ## The multiplicative-function framework -/

/-- The registration-time validation of the `multiplicative(minus1,
zero)` decorator: `minus1 in {-1, 0, 1}` and
`zero in {0, float("inf"), float("nan")}`, each raising `ValueError`
when the test fails.  Python set membership compares the candidate
against each element with `==` (after an identity check, which for a
freshly constructed argument never fires), so the `zero` test is
`pyEq` against each of the three elements. -/
def multiplicative (minus1 : Int) (zero : NumVal) : Except String Unit :=
  if ¬ (minus1 = -1 ∨ minus1 = 0 ∨ minus1 = 1) then
    .error "The value at -1 should be -1, 0 or 1"
  else if ¬ (pyEq zero (.int 0) || pyEq zero .inf || pyEq zero .nan) = true then
    .error "The value at 0 should be zero, infinite, or undefined"
  else
    .ok ()

/-! ## Lemmas about `oddPrimesUpTo` -/

theorem mem_oddPrimesUpTo {p n : Nat} :
    p ∈ oddPrimesUpTo n ↔ p.Prime ∧ p % 2 = 1 ∧ p ≤ n := by
  simp only [oddPrimesUpTo, List.mem_filter, List.mem_range, Bool.and_eq_true,
    decide_eq_true_eq, natPrimeB_iff]
  constructor
  · rintro ⟨hlt, hp, hm⟩
    exact ⟨hp, hm, by omega⟩
  · rintro ⟨hp, hm, hle⟩
    exact ⟨by omega, hp, hm⟩

theorem oddPrimesUpTo_pairwise (n : Nat) : (oddPrimesUpTo n).Pairwise (· < ·) :=
  List.Pairwise.filter _ (List.pairwise_lt_range _)

theorem oddPrimesUpTo_succ (n : Nat) :
    oddPrimesUpTo (n + 1) = oddPrimesUpTo n ++
      (if natPrimeB (n + 1) && decide ((n + 1) % 2 = 1) then [n + 1] else []) := by
  unfold oddPrimesUpTo
  rw [List.range_succ, List.filter_append]
  congr 1
  rw [List.filter_cons, List.filter_nil]

theorem oddPrimesUpTo_extend {a b : Nat} (h : a ≤ b) :
    ∃ t, oddPrimesUpTo b = oddPrimesUpTo a ++ t ∧
      ∀ c ∈ t, c.Prime ∧ c % 2 = 1 ∧ a < c ∧ c ≤ b := by
  induction b, h using Nat.le_induction with
  | base => exact ⟨[], by simp, by simp⟩
  | succ b hab ih =>
    obtain ⟨t, ht, hmem⟩ := ih
    refine ⟨t ++ (if natPrimeB (b + 1) && decide ((b + 1) % 2 = 1)
      then [b + 1] else []), ?_, ?_⟩
    · rw [oddPrimesUpTo_succ, ht, List.append_assoc]
    · intro c hc
      rcases List.mem_append.mp hc with hc | hc
      · obtain ⟨h1, h2, h3, h4⟩ := hmem c hc
        exact ⟨h1, h2, h3, by omega⟩
      · by_cases hcond : (natPrimeB (b + 1) && decide ((b + 1) % 2 = 1)) = true
        · rw [if_pos hcond] at hc
          simp only [List.mem_singleton] at hc
          subst hc
          simp only [Bool.and_eq_true, decide_eq_true_eq, natPrimeB_iff] at hcond
          exact ⟨hcond.1, hcond.2, by omega, le_refl _⟩
        · rw [if_neg hcond] at hc
          cases hc

/-! ## Preservation of the sieve invariant -/

/-- With the invariant in force, the trial division of one sieve step is
a complete primality test for the candidate `last_tested + 2`: a
composite candidate has a prime factor at most its square root, which
is odd (the candidate is odd) and at most `last_tested`, hence already
in the table. -/
theorem sieveStep_all_iff {s : SieveState} (h : SieveInv s) :
    (s.odd_primes_list.all fun p => decide ((s.last_tested + 2) % p ≠ 0)) = true ↔
      (s.last_tested + 2).Prime := by
  obtain ⟨hodd, h9, hlist, hset⟩ := h
  simp only [List.all_eq_true, decide_eq_true_eq]
  constructor
  · intro hall
    by_contra hnp
    have hmf_dvd : (s.last_tested + 2).minFac ∣ s.last_tested + 2 :=
      Nat.minFac_dvd _
    have hmf_prime : (s.last_tested + 2).minFac.Prime :=
      Nat.minFac_prime (by omega)
    have hsq : (s.last_tested + 2).minFac ^ 2 ≤ s.last_tested + 2 :=
      Nat.minFac_sq_le_self (by omega) hnp
    have hmf_ne2 : (s.last_tested + 2).minFac ≠ 2 := by
      intro h2
      rw [h2] at hmf_dvd
      obtain ⟨k, hk⟩ := hmf_dvd
      omega
    have hmf_odd : (s.last_tested + 2).minFac % 2 = 1 :=
      Nat.odd_iff.mp (hmf_prime.odd_of_ne_two hmf_ne2)
    have hmf3 : 3 ≤ (s.last_tested + 2).minFac := by
      have := hmf_prime.two_le
      omega
    have hmf_le : (s.last_tested + 2).minFac ≤ s.last_tested := by
      have h3m : 3 * (s.last_tested + 2).minFac ≤
          (s.last_tested + 2).minFac * (s.last_tested + 2).minFac :=
        Nat.mul_le_mul_right _ hmf3
      have hpow : (s.last_tested + 2).minFac ^ 2 =
          (s.last_tested + 2).minFac * (s.last_tested + 2).minFac := pow_two _
      omega
    have hmem : (s.last_tested + 2).minFac ∈ s.odd_primes_list := by
      rw [hlist, mem_oddPrimesUpTo]
      exact ⟨hmf_prime, hmf_odd, hmf_le⟩
    exact hall _ hmem (Nat.mod_eq_zero_of_dvd hmf_dvd)
  · intro hp p hpmem hmod
    rw [hlist, mem_oddPrimesUpTo] at hpmem
    have hdvd : p ∣ s.last_tested + 2 := Nat.dvd_of_mod_eq_zero hmod
    rcases (Nat.Prime.eq_one_or_self_of_dvd hp p hdvd) with h1 | hself
    · exact absurd h1 (by have := hpmem.1.two_le; omega)
    · have := hpmem.2.2
      omega

theorem sieveStep_inv {s : SieveState} (h : SieveInv s) :
    SieveInv (sieveStep s) := by
  have hiff := sieveStep_all_iff h
  obtain ⟨hodd, h9, hlist, hset⟩ := h
  have hd1 : (decide ((s.last_tested + 1) % 2 = 1)) = false := by
    simp only [decide_eq_false_iff_not]
    omega
  have hd2 : (decide ((s.last_tested + 2) % 2 = 1)) = true := by
    simp only [decide_eq_true_eq]
    omega
  have hstep1 : oddPrimesUpTo (s.last_tested + 1) = oddPrimesUpTo s.last_tested := by
    rw [oddPrimesUpTo_succ, hd1]
    simp
  have hstep2 : oddPrimesUpTo (s.last_tested + 2) =
      oddPrimesUpTo s.last_tested ++
        (if natPrimeB (s.last_tested + 2) then [s.last_tested + 2] else []) := by
    have h21 : s.last_tested + 2 = (s.last_tested + 1) + 1 := rfl
    rw [h21, oddPrimesUpTo_succ, hstep1]
    congr 1
    rw [← h21, hd2, Bool.and_true]
  unfold sieveStep
  by_cases hcond :
      (s.odd_primes_list.all fun p => decide ((s.last_tested + 2) % p ≠ 0)) = true
  · rw [if_pos hcond]
    have hcp : (s.last_tested + 2).Prime := hiff.mp hcond
    have hnp : natPrimeB (s.last_tested + 2) = true := natPrimeB_iff.mpr hcp
    refine ⟨by dsimp only; omega, by dsimp only; omega, ?_, ?_⟩
    · dsimp only
      rw [hstep2, hnp, if_pos rfl, hlist]
    · dsimp only
      rw [hstep2, hnp, if_pos rfl, hset, List.toFinset_append]
      ext x
      simp only [Finset.mem_insert, Finset.mem_union, List.toFinset_cons,
        List.toFinset_nil, insert_emptyc_eq, Finset.mem_singleton]
      tauto
  · rw [if_neg hcond]
    have hcp : ¬ (s.last_tested + 2).Prime := fun hp => hcond (hiff.mpr hp)
    have hnp : natPrimeB (s.last_tested + 2) = false := by
      rcases Bool.eq_false_or_eq_true (natPrimeB (s.last_tested + 2)) with ht | hf
      · exact absurd (natPrimeB_iff.mp ht) hcp
      · exact hf
    refine ⟨by dsimp only; omega, by dsimp only; omega, ?_, ?_⟩
    · dsimp only
      rw [hstep2, hnp]
      simp only [Bool.false_eq_true, if_false, List.append_nil]
      exact hlist
    · dsimp only
      rw [hstep2, hnp]
      simp only [Bool.false_eq_true, if_false, List.append_nil]
      exact hset

/-! ## Lemmas about the sieve loop -/

theorem sieveLoop_induction (stop : Nat) (P : SieveState → Prop)
    (hstep : ∀ s, s.last_tested < stop → P s → P (sieveStep s)) :
    ∀ s, P s → P (sieveLoop stop s) := by
  have key : ∀ k s, stop - s.last_tested ≤ k → P s → P (sieveLoop stop s) := by
    intro k
    induction k with
    | zero =>
      intro s hk hs
      rw [sieveLoop_eq, if_neg (by omega)]
      exact hs
    | succ k ih =>
      intro s hk hs
      rw [sieveLoop_eq]
      by_cases hgt : stop > s.last_tested
      · rw [if_pos hgt]
        exact ih _ (by rw [sieveStep_last_tested]; omega) (hstep s hgt hs)
      · rw [if_neg hgt]
        exact hs
  intro s hs
  exact key (stop - s.last_tested) s le_rfl hs

theorem le_sieveLoop_last (stop : Nat) : ∀ s, stop ≤ (sieveLoop stop s).last_tested := by
  have key : ∀ k s, stop - s.last_tested ≤ k → stop ≤ (sieveLoop stop s).last_tested := by
    intro k
    induction k with
    | zero =>
      intro s hk
      rw [sieveLoop_eq, if_neg (by omega)]
      omega
    | succ k ih =>
      intro s hk
      rw [sieveLoop_eq]
      by_cases hgt : stop > s.last_tested
      · rw [if_pos hgt]
        exact ih _ (by rw [sieveStep_last_tested]; omega)
      · rw [if_neg hgt]
        omega
  intro s
  exact key (stop - s.last_tested) s le_rfl

theorem sieveLoop_last_mono (stop : Nat) (s : SieveState) :
    s.last_tested ≤ (sieveLoop stop s).last_tested := by
  refine sieveLoop_induction stop (fun t => s.last_tested ≤ t.last_tested) ?_ s le_rfl
  intro t _ ht
  rw [sieveStep_last_tested]
  omega

theorem sieveLoop_inv {s : SieveState} (h : SieveInv s) (stop : Nat) :
    SieveInv (sieveLoop stop s) :=
  sieveLoop_induction stop SieveInv (fun _ _ ht => sieveStep_inv ht) s h

theorem sieve_inv {s : SieveState} (h : SieveInv s) (stop : Int) :
    SieveInv (Primes.sieve stop s) := by
  unfold Primes.sieve
  split
  · exact h
  · exact sieveLoop_inv h _

theorem sieve_last_mono (stop : Int) (s : SieveState) :
    s.last_tested ≤ (Primes.sieve stop s).last_tested := by
  unfold Primes.sieve
  split
  · exact le_rfl
  · exact sieveLoop_last_mono _ s

theorem sieve_last_ge {stop : Int} (hs : stop ≠ 0) (s : SieveState) :
    stop.natAbs ≤ (Primes.sieve stop s).last_tested := by
  unfold Primes.sieve
  rw [if_neg hs]
  exact le_sieveLoop_last _ s

/-- Membership in `small_primes_set` under the invariant. -/
theorem SieveInv.mem_set_iff {s : SieveState} (h : SieveInv s) {p : Nat} :
    p ∈ s.small_primes_set ↔
      p = 2 ∨ (p.Prime ∧ p % 2 = 1 ∧ p ≤ s.last_tested) := by
  rw [h.2.2.2]
  simp only [Finset.mem_insert, List.mem_toFinset, mem_oddPrimesUpTo]

/-- Every prime up to `last_tested` is in the set. -/
theorem SieveInv.prime_mem_set {s : SieveState} (h : SieveInv s) {p : Nat}
    (hp : p.Prime) (hle : p ≤ s.last_tested) : p ∈ s.small_primes_set := by
  rw [h.mem_set_iff]
  rcases hp.eq_two_or_odd with h2 | hoddp
  · exact Or.inl h2
  · exact Or.inr ⟨hp, hoddp, hle⟩

/-- Every member of the set is prime. -/
theorem SieveInv.mem_set_prime {s : SieveState} (h : SieveInv s) {p : Nat}
    (hp : p ∈ s.small_primes_set) : p.Prime ∧ p ≤ s.last_tested := by
  rw [h.mem_set_iff] at hp
  rcases hp with rfl | ⟨hp, _, hle⟩
  · exact ⟨Nat.prime_two, by have := h.2.1; omega⟩
  · exact ⟨hp, hle⟩

/-! ## Lemmas about `extract_power` -/

theorem extract_power_spec {p : Nat} (hp : 2 ≤ p) :
    ∀ n, 1 ≤ n →
      1 ≤ (Primes.extract_power n p).2 ∧
      p ^ (Primes.extract_power n p).1 * (Primes.extract_power n p).2 = n ∧
      ¬ p ∣ (Primes.extract_power n p).2 := by
  intro n
  induction n using Nat.strong_induction_on with
  | _ n ih =>
    intro hn
    rw [extract_power_eq]
    by_cases hcond : 2 ≤ p ∧ 0 < n ∧ n % p = 0
    · rw [if_pos hcond]
      have hmod := hcond.2.2
      have hdvd : p ∣ n := Nat.dvd_of_mod_eq_zero hmod
      have hlt : n / p < n := Nat.div_lt_self (by omega) (by omega)
      have hge : 1 ≤ n / p :=
        (Nat.one_le_div_iff (by omega)).mpr (Nat.le_of_dvd (by omega) hdvd)
      obtain ⟨h1, h2, h3⟩ := ih (n / p) hlt hge
      refine ⟨h1, ?_, h3⟩
      show p ^ ((Primes.extract_power (n / p) p).1 + 1) *
        (Primes.extract_power (n / p) p).2 = n
      rw [pow_succ]
      calc p ^ (Primes.extract_power (n / p) p).1 * p *
            (Primes.extract_power (n / p) p).2
          = p * (p ^ (Primes.extract_power (n / p) p).1 *
            (Primes.extract_power (n / p) p).2) := by ring
        _ = p * (n / p) := by rw [h2]
        _ = n := Nat.mul_div_cancel' hdvd
    · rw [if_neg hcond]
      refine ⟨hn, by simp, fun hdvd => ?_⟩
      exact hcond ⟨hp, by omega, Nat.mod_eq_zero_of_dvd hdvd⟩

theorem extract_power_of_not_dvd {p n : Nat} (h : ¬ p ∣ n) :
    Primes.extract_power n p = (0, n) := by
  rw [extract_power_eq, if_neg]
  rintro ⟨-, -, h3⟩
  exact h (Nat.dvd_of_mod_eq_zero h3)

/-- The quotient divides the input. -/
theorem extract_power_dvd {p : Nat} (hp : 2 ≤ p) {n : Nat} (hn : 1 ≤ n) :
    (Primes.extract_power n p).2 ∣ n := by
  obtain ⟨-, h2, -⟩ := extract_power_spec hp n hn
  refine ⟨p ^ (Primes.extract_power n p).1, ?_⟩
  rw [mul_comm]
  exact h2.symm

/-- If anything was extracted and `3 ≤ p`, the quotient shrank by a
factor of at least 3. -/
theorem extract_power_shrink {p : Nat} (hp : 3 ≤ p) {n : Nat} (hn : 1 ≤ n)
    (he : 0 < (Primes.extract_power n p).1) :
    3 * (Primes.extract_power n p).2 ≤ n := by
  obtain ⟨h1, h2, -⟩ := @extract_power_spec p (by omega) n hn
  have hpow : p ≤ p ^ (Primes.extract_power n p).1 :=
    Nat.le_self_pow (by omega : (Primes.extract_power n p).1 ≠ 0) p
  have h3 : 3 ≤ p ^ (Primes.extract_power n p).1 := le_trans hp hpow
  have h4 : 3 * (Primes.extract_power n p).2 ≤
      p ^ (Primes.extract_power n p).1 * (Primes.extract_power n p).2 :=
    Nat.mul_le_mul h3 (le_refl _)
  omega

/-! ## The product of a factor list -/

/-- The product of the prime-power pairs of a factor list. -/
def prodPairs (l : List (Nat × Nat)) : Nat :=
  (l.map fun pe => pe.1 ^ pe.2).prod

theorem foldl_mul_eq {α : Type*} {M : Type*} [CommMonoid M] (f : α → M) :
    ∀ (l : List α) (c : M),
      l.foldl (fun acc x => acc * f x) c = c * (l.map f).prod := by
  intro l
  induction l with
  | nil => intro c; simp
  | cons x xs ih =>
    intro c
    simp only [List.foldl_cons, List.map_cons, List.prod_cons, ih, mul_assoc]

theorem prodPairs_append (l : List (Nat × Nat)) (p e : Nat) :
    prodPairs (l ++ [(p, e)]) = prodPairs l * p ^ e := by
  unfold prodPairs
  rw [List.map_append, List.prod_append]
  simp

theorem multiply_of_eq (u : Int) (l : List (Nat × Nat)) :
    Primes.multiply (.of u l) = u * (prodPairs l : Int) := by
  show l.foldl (fun acc pe => acc * (pe.1 : Int) ^ pe.2) (1 * u) = _
  rw [foldl_mul_eq (fun pe : Nat × Nat => (pe.1 : Int) ^ pe.2), one_mul]
  congr 1
  unfold prodPairs
  induction l with
  | nil => simp
  | cons x xs ih => simp [ih]

/-! ## The `for` loop over the known odd primes -/

theorem factorFor_spec :
    ∀ (ps : List Nat) (a : Nat) (facs : List (Nat × Nat)),
      1 ≤ a → (∀ q ∈ ps, q.Prime) →
      1 ≤ (factorFor ps a facs).1 ∧
      (factorFor ps a facs).1 ∣ a ∧
      prodPairs (factorFor ps a facs).2 * (factorFor ps a facs).1 =
        prodPairs facs * a ∧
      ((factorFor ps a facs).1 = 1 ∨ ∀ q ∈ ps, ¬ q ∣ (factorFor ps a facs).1) ∧
      (((∀ pe ∈ facs, pe.1.Prime ∧ 1 ≤ pe.2 ∧ ¬ pe.1 ∣ a) ∧
          facs.Pairwise (fun x y => x.1 < y.1) ∧
          (∀ pe ∈ facs, ∀ q ∈ ps, pe.1 < q) ∧
          ps.Pairwise (· < ·)) →
        ((∀ pe ∈ (factorFor ps a facs).2,
            pe.1.Prime ∧ 1 ≤ pe.2 ∧ ¬ pe.1 ∣ (factorFor ps a facs).1) ∧
          (factorFor ps a facs).2.Pairwise (fun x y => x.1 < y.1) ∧
          (∀ pe ∈ (factorFor ps a facs).2, pe ∈ facs ∨ pe.1 ∈ ps))) := by
  intro ps
  induction ps with
  | nil =>
    intro a facs ha _
    refine ⟨ha, dvd_rfl, rfl, Or.inr (by simp), ?_⟩
    rintro ⟨hfacs, hpair, -, -⟩
    exact ⟨hfacs, hpair, fun pe hpe => Or.inl hpe⟩
  | cons p ps ih =>
    intro a facs ha hprime
    have hp : p.Prime := hprime p (List.mem_cons_self p ps)
    have hp2 : 2 ≤ p := hp.two_le
    obtain ⟨hq1, hqeq, hqnd⟩ := extract_power_spec hp2 a ha
    have hqda : (Primes.extract_power a p).2 ∣ a := extract_power_dvd hp2 ha
    simp only [factorFor]
    set r := Primes.extract_power a p with hr
    set facs2 := (if 0 < r.1 then facs ++ [(p, r.1)] else facs) with hfacs2
    have hprod2 : prodPairs facs2 * r.2 = prodPairs facs * a := by
      rw [hfacs2]
      by_cases he : 0 < r.1
      · rw [if_pos he, prodPairs_append, mul_assoc, hqeq]
      · rw [if_neg he]
        have h0 : r.1 = 0 := by omega
        rw [h0, pow_zero, one_mul] at hqeq
        rw [hqeq]
    have hfacs2good :
        (∀ pe ∈ facs, pe.1.Prime ∧ 1 ≤ pe.2 ∧ ¬ pe.1 ∣ a) →
        facs.Pairwise (fun x y => x.1 < y.1) →
        (∀ pe ∈ facs, pe.1 < p) →
        ((∀ pe ∈ facs2, pe.1.Prime ∧ 1 ≤ pe.2 ∧ ¬ pe.1 ∣ r.2) ∧
          facs2.Pairwise (fun x y => x.1 < y.1) ∧
          (∀ pe ∈ facs2, pe ∈ facs ∨ pe.1 = p)) := by
      intro h1 h2 h3
      rw [hfacs2]
      by_cases he : 0 < r.1
      · rw [if_pos he]
        refine ⟨?_, ?_, ?_⟩
        · intro pe hpe
          rcases List.mem_append.mp hpe with hpe | hpe
          · obtain ⟨hx1, hx2, hx3⟩ := h1 pe hpe
            exact ⟨hx1, hx2, fun hd => hx3 (hd.trans hqda)⟩
          · simp only [List.mem_singleton] at hpe
            subst hpe
            exact ⟨hp, he, hqnd⟩
        · rw [List.pairwise_append]
          refine ⟨h2, List.pairwise_singleton _ _, ?_⟩
          intro x hx y hy
          simp only [List.mem_singleton] at hy
          subst hy
          exact h3 x hx
        · intro pe hpe
          rcases List.mem_append.mp hpe with hpe | hpe
          · exact Or.inl hpe
          · simp only [List.mem_singleton] at hpe
            subst hpe
            exact Or.inr rfl
      · rw [if_neg he]
        refine ⟨?_, h2, fun pe hpe => Or.inl hpe⟩
        intro pe hpe
        obtain ⟨hx1, hx2, hx3⟩ := h1 pe hpe
        exact ⟨hx1, hx2, fun hd => hx3 (hd.trans hqda)⟩
    by_cases hbreak : r.2 = 1
    · rw [if_pos hbreak]
      refine ⟨hq1, hqda, hprod2, Or.inl hbreak, ?_⟩
      rintro ⟨h1, h2, h3, -⟩
      obtain ⟨g1, g2, g3⟩ :=
        hfacs2good h1 h2 (fun pe hpe => h3 pe hpe p (List.mem_cons_self p ps))
      refine ⟨g1, g2, ?_⟩
      intro pe hpe
      rcases g3 pe hpe with h | h
      · exact Or.inl h
      · exact Or.inr (List.mem_cons.mpr (Or.inl h))
    · rw [if_neg hbreak]
      obtain ⟨c1, c2, c3, c4, c5⟩ :=
        ih r.2 facs2 hq1 (fun q hq => hprime q (List.mem_cons_of_mem _ hq))
      refine ⟨c1, c2.trans hqda, ?_, ?_, ?_⟩
      · rw [c3, hprod2]
      · rcases c4 with c4 | c4
        · exact Or.inl c4
        · refine Or.inr fun q hq => ?_
          rcases List.mem_cons.mp hq with rfl | hq2
          · exact fun hd => hqnd (hd.trans c2)
          · exact c4 q hq2
      · rintro ⟨h1, h2, h3, h4⟩
        have hbelowp : ∀ pe ∈ facs, pe.1 < p :=
          fun pe hpe => h3 pe hpe p (List.mem_cons_self p ps)
        obtain ⟨g1, g2, g3⟩ := hfacs2good h1 h2 hbelowp
        have hpltps : ∀ q ∈ ps, p < q := (List.pairwise_cons.mp h4).1
        have hkeys : ∀ pe ∈ facs2, ∀ q ∈ ps, pe.1 < q := by
          intro pe hpe q hq
          rcases g3 pe hpe with h | h
          · exact h3 pe h q (List.mem_cons_of_mem _ hq)
          · rw [h]
            exact hpltps q hq
        obtain ⟨d1, d2, d3⟩ := c5 ⟨g1, g2, hkeys, h4.of_cons⟩
        refine ⟨d1, d2, ?_⟩
        intro pe hpe
        rcases d3 pe hpe with h | h
        · rcases g3 pe h with h' | h'
          · exact Or.inl h'
          · exact Or.inr (List.mem_cons.mpr (Or.inl h'))
        · exact Or.inr (List.mem_cons.mpr (Or.inr h))

/-! ## The inner `while m < len(...)` loop -/

theorem factorInner_eq_def (lst : List Nat) (m a : Nat) (facs : List (Nat × Nat)) :
    factorInner lst m a facs =
      if h : m < lst.length then
        (if (Primes.extract_power a (lst.get ⟨m, h⟩)).2 = 1
         then (m + 1, (Primes.extract_power a (lst.get ⟨m, h⟩)).2,
               (if 0 < (Primes.extract_power a (lst.get ⟨m, h⟩)).1
                then facs ++ [(lst.get ⟨m, h⟩, (Primes.extract_power a (lst.get ⟨m, h⟩)).1)]
                else facs))
         else factorInner lst (m + 1) (Primes.extract_power a (lst.get ⟨m, h⟩)).2
                (if 0 < (Primes.extract_power a (lst.get ⟨m, h⟩)).1
                 then facs ++ [(lst.get ⟨m, h⟩, (Primes.extract_power a (lst.get ⟨m, h⟩)).1)]
                 else facs))
      else (m, a, facs) := by
  rw [factorInner]

/-- The inner loop is the `for` loop over the tail of the list from
index `m`; and when it finishes with a cofactor other than 1, it has
walked `m` to the end of the list. -/
theorem factorInner_spec (lst : List Nat) :
    ∀ m a facs,
      ((factorInner lst m a facs).2.1, (factorInner lst m a facs).2.2) =
        factorFor (lst.drop m) a facs ∧
      (m ≤ lst.length → (factorInner lst m a facs).2.1 ≠ 1 →
        (factorInner lst m a facs).1 = lst.length) := by
  have key : ∀ k m a facs, lst.length - m ≤ k →
      ((factorInner lst m a facs).2.1, (factorInner lst m a facs).2.2) =
        factorFor (lst.drop m) a facs ∧
      (m ≤ lst.length → (factorInner lst m a facs).2.1 ≠ 1 →
        (factorInner lst m a facs).1 = lst.length) := by
    intro k
    induction k with
    | zero =>
      intro m a facs hk
      rw [factorInner_eq_def, dif_neg (by omega)]
      have hdrop : lst.drop m = [] := List.drop_eq_nil_of_le (by omega)
      rw [hdrop]
      exact ⟨rfl, fun hle _ => show m = lst.length by omega⟩
    | succ k ihk =>
      intro m a facs hk
      rw [factorInner_eq_def]
      by_cases h : m < lst.length
      · rw [dif_pos h]
        have hdrop : lst.drop m = lst.get ⟨m, h⟩ :: lst.drop (m + 1) := by
          rw [List.get_eq_getElem]
          exact List.drop_eq_getElem_cons h
        rw [hdrop]
        simp only [factorFor]
        by_cases hbreak : (Primes.extract_power a (lst.get ⟨m, h⟩)).2 = 1
        · rw [if_pos hbreak, if_pos hbreak]
          exact ⟨rfl, fun _ hne => absurd hbreak hne⟩
        · rw [if_neg hbreak, if_neg hbreak]
          obtain ⟨ih1, ih2⟩ := ihk (m + 1)
            (Primes.extract_power a (lst.get ⟨m, h⟩)).2
            (if 0 < (Primes.extract_power a (lst.get ⟨m, h⟩)).1
             then facs ++ [(lst.get ⟨m, h⟩, (Primes.extract_power a (lst.get ⟨m, h⟩)).1)]
             else facs)
            (by omega)
          exact ⟨ih1, fun _ hne => ih2 (by omega) hne⟩
      · rw [dif_neg h]
        have hdrop : lst.drop m = [] := List.drop_eq_nil_of_le (by omega)
        rw [hdrop]
        exact ⟨rfl, fun hle _ => show m = lst.length by omega⟩
  intro m a facs
  exact key (lst.length - m) m a facs le_rfl

/-! ## Golden-ratio sieve growth -/

theorem phiStop_ge {lt : Nat} (h : 9 ≤ lt) : lt + 4 ≤ phiStop lt := by
  unfold phiStop phiNum
  have h52 : (2 : Nat) ^ 52 = 4503599627370496 := by norm_num
  rw [h52, Nat.le_div_iff_mul_le (by norm_num)]
  omega

theorem sieve_phi_growth {s : SieveState} (h9 : 9 ≤ s.last_tested) :
    s.last_tested + 4 ≤ (Primes.sieve (phiStop s.last_tested : Int) s).last_tested := by
  have h1 : s.last_tested + 4 ≤ phiStop s.last_tested := phiStop_ge h9
  have h2 : (phiStop s.last_tested : Int) ≠ 0 :=
    Int.natCast_ne_zero.mpr (by omega)
  have h3 := sieve_last_ge h2 s
  rw [Int.natAbs_ofNat] at h3
  omega

/-! ## The outer `while n > 1` loop -/

theorem factorOuter_spec :
    ∀ (fuel a m : Nat) (s : SieveState) (facs : List (Nat × Nat)),
      SieveInv s → 1 ≤ a →
      (∀ q : Nat, q.Prime → q ∣ a → s.last_tested < q) →
      (1 < a → m = s.odd_primes_list.length) →
      a + (a.minFac - s.last_tested) ≤ 2 * fuel + 1 →
      (factorOuter fuel a m s facs).1 = 1 ∧
      SieveInv (factorOuter fuel a m s facs).2.1 ∧
      s.last_tested ≤ (factorOuter fuel a m s facs).2.1.last_tested ∧
      prodPairs (factorOuter fuel a m s facs).2.2 = prodPairs facs * a ∧
      (((∀ pe ∈ facs, pe.1.Prime ∧ 1 ≤ pe.2) ∧
          facs.Pairwise (fun x y => x.1 < y.1) ∧
          (∀ pe ∈ facs, pe.1 ≤ s.last_tested)) →
        ((∀ pe ∈ (factorOuter fuel a m s facs).2.2, pe.1.Prime ∧ 1 ≤ pe.2) ∧
          (factorOuter fuel a m s facs).2.2.Pairwise (fun x y => x.1 < y.1) ∧
          (∀ pe ∈ (factorOuter fuel a m s facs).2.2,
            pe.1 ≤ (factorOuter fuel a m s facs).2.1.last_tested))) := by
  intro fuel
  induction fuel with
  | zero =>
    intro a m s facs hinv ha hq hm hfuel
    have ha1 : a = 1 := by
      by_contra hne
      have hmf : a.minFac.Prime := Nat.minFac_prime hne
      have hlt := hq a.minFac hmf (Nat.minFac_dvd a)
      have h9 := hinv.2.1
      omega
    subst ha1
    simp only [factorOuter]
    exact ⟨by trivial, hinv, le_rfl, by rw [mul_one],
      fun h => ⟨h.1, h.2.1, h.2.2⟩⟩
  | succ fuel ih =>
    intro a m s facs hinv ha hq hm hfuel
    by_cases h1a : 1 < a
    · -- an iteration of the loop really happens
      simp only [factorOuter]
      rw [if_pos h1a]
      have hm' := hm h1a
      have haodd : ¬ 2 ∣ a := by
        intro hd
        have hlt := hq 2 Nat.prime_two hd
        have h9 := hinv.2.1
        omega
      have hamod : a % 2 = 1 := by
        rcases Nat.mod_two_eq_zero_or_one a with h | h
        · exact absurd (Nat.dvd_of_mod_eq_zero h) haodd
        · exact h
      have hmfa : a.minFac.Prime := Nat.minFac_prime (by omega)
      have hmfa_lt : s.last_tested < a.minFac := hq _ hmfa (Nat.minFac_dvd a)
      set s2 := Primes.sieve (phiStop s.last_tested : Int) s with hs2
      have hinv2 : SieveInv s2 := sieve_inv hinv _
      have hlt2 : s.last_tested + 4 ≤ s2.last_tested := sieve_phi_growth hinv.2.1
      obtain ⟨t, ht, htmem⟩ :=
        oddPrimesUpTo_extend (by omega : s.last_tested ≤ s2.last_tested)
      have hlist2 : s2.odd_primes_list = oddPrimesUpTo s.last_tested ++ t := by
        rw [hinv2.2.2.1, ht]
      have hdrop : s2.odd_primes_list.drop m = t := by
        rw [hlist2, hm', hinv.2.2.1]
        exact List.drop_left _ _
      have hmlen : m ≤ s2.odd_primes_list.length := by
        rw [hlist2, hm', hinv.2.2.1, List.length_append]
        omega
      have htprime : ∀ q ∈ t, q.Prime := fun q hqt => (htmem q hqt).1
      obtain ⟨hpair, hmfinal⟩ := factorInner_spec s2.odd_primes_list m a facs
      rw [hdrop] at hpair
      obtain ⟨c1, c2, c3, c4, c5⟩ := factorFor_spec t a facs (by omega) htprime
      set rI := factorInner s2.odd_primes_list m a facs with hrI
      set rF := factorFor t a facs with hrF
      have ha' : rI.2.1 = rF.1 := congrArg Prod.fst hpair
      have hfacs' : rI.2.2 = rF.2 := congrArg Prod.snd hpair
      rw [ha', hfacs']
      have hq2 : ∀ q : Nat, q.Prime → q ∣ rF.1 → s2.last_tested < q := by
        intro q hqp hqd
        have hqa : q ∣ a := hqd.trans c2
        have hgt : s.last_tested < q := hq q hqp hqa
        by_contra hle
        push_neg at hle
        have hqodd : q % 2 = 1 := by
          rcases hqp.eq_two_or_odd with rfl | h
          · exact absurd hqa haodd
          · exact h
        have hqmem : q ∈ oddPrimesUpTo s2.last_tested :=
          mem_oddPrimesUpTo.mpr ⟨hqp, hqodd, hle⟩
        rw [ht] at hqmem
        rcases List.mem_append.mp hqmem with hin | hin
        · have := (mem_oddPrimesUpTo.mp hin).2.2
          omega
        · rcases c4 with hc | hc
          · rw [hc] at hqd
            have h1 := Nat.dvd_one.mp hqd
            have h2 := hqp.two_le
            omega
          · exact absurd hqd (hc q hin)
      have hm2 : 1 < rF.1 → rI.1 = s2.odd_primes_list.length := by
        intro h
        refine hmfinal hmlen ?_
        rw [ha']
        omega
      have hfuel2 : rF.1 + (rF.1.minFac - s2.last_tested) ≤ 2 * fuel + 1 := by
        by_cases hone : rF.1 = 1
        · rw [hone, Nat.minFac_one]
          omega
        · have h1' : 1 < rF.1 := by omega
          have hmf' : rF.1.minFac.Prime := Nat.minFac_prime hone
          have hmfle : rF.1.minFac ≤ rF.1 := Nat.minFac_le (by omega)
          by_cases heq : rF.1 = a
          · have hgt2 : s2.last_tested < rF.1.minFac :=
              hq2 _ hmf' (Nat.minFac_dvd _)
            rw [heq] at hgt2 hmfle ⊢
            omega
          · have hdvd : rF.1 ∣ a := c2
            have hlt' : rF.1 < a :=
              lt_of_le_of_ne (Nat.le_of_dvd (by omega) hdvd) heq
            obtain ⟨c, hc⟩ := hdvd
            have hc2 : 2 ≤ c := by
              rcases Nat.lt_or_ge c 2 with h | h
              · interval_cases c <;> omega
              · exact h
            have h2a' : 2 * rF.1 ≤ a := by
              calc 2 * rF.1 ≤ c * rF.1 := Nat.mul_le_mul hc2 (le_refl _)
                _ = a := by rw [mul_comm, ← hc]
            omega
      obtain ⟨d1, d2, d3, d4, d5⟩ := ih rF.1 rI.1 s2 rF.2 hinv2 c1 hq2 hm2 hfuel2
      refine ⟨d1, d2, by omega, ?_, ?_⟩
      · rw [d4, c3]
      · rintro ⟨e1, e2, e3⟩
        have hc5hyp : (∀ pe ∈ facs, pe.1.Prime ∧ 1 ≤ pe.2 ∧ ¬ pe.1 ∣ a) ∧
            facs.Pairwise (fun x y => x.1 < y.1) ∧
            (∀ pe ∈ facs, ∀ q ∈ t, pe.1 < q) ∧
            t.Pairwise (· < ·) := by
          refine ⟨?_, e2, ?_, ?_⟩
          · intro pe hpe
            obtain ⟨hx1, hx2⟩ := e1 pe hpe
            refine ⟨hx1, hx2, fun hd => ?_⟩
            have := hq pe.1 hx1 hd
            have := e3 pe hpe
            omega
          · intro pe hpe q hqt
            have h1 := e3 pe hpe
            have h2 := (htmem q hqt).2.2.1
            omega
          · have hpw := oddPrimesUpTo_pairwise s2.last_tested
            rw [ht] at hpw
            exact (List.pairwise_append.mp hpw).2.1
        obtain ⟨f1, f2, f3⟩ := c5 hc5hyp
        have hd5hyp : (∀ pe ∈ rF.2, pe.1.Prime ∧ 1 ≤ pe.2) ∧
            rF.2.Pairwise (fun x y => x.1 < y.1) ∧
            (∀ pe ∈ rF.2, pe.1 ≤ s2.last_tested) := by
          refine ⟨fun pe hpe => ⟨(f1 pe hpe).1, (f1 pe hpe).2.1⟩, f2, ?_⟩
          intro pe hpe
          rcases f3 pe hpe with h | h
          · have := e3 pe h
            omega
          · have := (htmem pe.1 h).2.2.2
            omega
        exact d5 hd5hyp
    · -- the cofactor is already 1: the loop body is skipped
      have ha1 : a = 1 := by omega
      subst ha1
      simp only [factorOuter]
      rw [if_neg (by omega : ¬ (1 : Nat) < 1)]
      exact ⟨by trivial, hinv, le_rfl, by rw [mul_one],
        fun h => ⟨h.1, h.2.1, h.2.2⟩⟩

/-! ## Correctness of `factor_slow` -/

theorem factor_slow_spec {s : SieveState} (hinv : SieveInv s) (n : Int) (hn : n ≠ 0) :
    ∃ l, (Primes.factor_slow s n).1 = Factorization.of (if 0 < n then 1 else -1) l ∧
      SieveInv (Primes.factor_slow s n).2 ∧
      prodPairs l = n.natAbs ∧
      (∀ pe ∈ l, pe.1.Prime ∧ 1 ≤ pe.2) ∧
      l.Pairwise (fun x y => x.1 < y.1) := by
  have ha : 1 ≤ n.natAbs := Int.natAbs_pos.mpr hn
  simp only [Primes.factor_slow]
  rw [if_neg hn]
  by_cases h1 : n.natAbs = 1
  · rw [if_pos h1]
    refine ⟨[], rfl, hinv, ?_, by simp, List.Pairwise.nil⟩
    rw [h1]
    rfl
  · rw [if_neg h1]
    have ha2 : 2 ≤ n.natAbs := by omega
    obtain ⟨e1, eeq, end2⟩ := extract_power_spec (le_refl 2) n.natAbs ha
    set r2 := Primes.extract_power n.natAbs 2 with hr2
    set facs0 : List (Nat × Nat) := (if 0 < r2.1 then [(2, r2.1)] else []) with hfacs0
    have hprod0 : prodPairs facs0 * r2.2 = n.natAbs := by
      rw [hfacs0]
      by_cases he : 0 < r2.1
      · rw [if_pos he]
        have hsing : prodPairs [(2, r2.1)] = 2 ^ r2.1 := by
          unfold prodPairs
          simp
        rw [hsing, eeq]
      · rw [if_neg he]
        have h0 : r2.1 = 0 := by omega
        rw [h0, pow_zero, one_mul] at eeq
        have hnil : prodPairs ([] : List (Nat × Nat)) = 1 := rfl
        rw [hnil, one_mul, eeq]
    have hfacs0good : ∀ pe ∈ facs0, pe.1 = 2 ∧ 1 ≤ pe.2 ∧ ¬ pe.1 ∣ r2.2 := by
      intro pe hpe
      rw [hfacs0] at hpe
      by_cases he : 0 < r2.1
      · rw [if_pos he] at hpe
        simp only [List.mem_singleton] at hpe
        subst hpe
        exact ⟨rfl, he, end2⟩
      · rw [if_neg he] at hpe
        cases hpe
    have hfacs0pair : facs0.Pairwise (fun x y => x.1 < y.1) := by
      rw [hfacs0]
      by_cases he : 0 < r2.1
      · rw [if_pos he]
        exact List.pairwise_singleton _ _
      · rw [if_neg he]
        exact List.Pairwise.nil
    by_cases hb : r2.2 = 1
    · rw [if_pos hb]
      refine ⟨facs0, rfl, hinv, ?_, ?_, hfacs0pair⟩
      · rw [← hprod0, hb, mul_one]
      · intro pe hpe
        obtain ⟨hx1, hx2, -⟩ := hfacs0good pe hpe
        exact ⟨by rw [hx1]; exact Nat.prime_two, hx2⟩
    · rw [if_neg hb]
      have hlistprime : ∀ q ∈ s.odd_primes_list, q.Prime := by
        intro q hql
        rw [hinv.2.2.1] at hql
        exact (mem_oddPrimesUpTo.mp hql).1
      have hlistodd : ∀ q ∈ s.odd_primes_list, 3 ≤ q ∧ q ≤ s.last_tested := by
        intro q hql
        rw [hinv.2.2.1] at hql
        obtain ⟨hq1, hq2, hq3⟩ := mem_oddPrimesUpTo.mp hql
        have := hq1.two_le
        constructor
        · omega
        · exact hq3
      obtain ⟨c1, c2, c3, c4, c5⟩ :=
        factorFor_spec s.odd_primes_list r2.2 facs0 (by omega) hlistprime
      set rFor := factorFor s.odd_primes_list r2.2 facs0 with hrFor
      have hc5hyp : (∀ pe ∈ facs0, pe.1.Prime ∧ 1 ≤ pe.2 ∧ ¬ pe.1 ∣ r2.2) ∧
          facs0.Pairwise (fun x y => x.1 < y.1) ∧
          (∀ pe ∈ facs0, ∀ q ∈ s.odd_primes_list, pe.1 < q) ∧
          s.odd_primes_list.Pairwise (· < ·) := by
        refine ⟨?_, hfacs0pair, ?_, ?_⟩
        · intro pe hpe
          obtain ⟨hx1, hx2, hx3⟩ := hfacs0good pe hpe
          exact ⟨by rw [hx1]; exact Nat.prime_two, hx2, hx3⟩
        · intro pe hpe q hql
          obtain ⟨hx1, -, -⟩ := hfacs0good pe hpe
          have := (hlistodd q hql).1
          omega
        · rw [hinv.2.2.1]
          exact oddPrimesUpTo_pairwise _
      obtain ⟨f1, f2, f3⟩ := c5 hc5hyp
      have hqbig : ∀ q : Nat, q.Prime → q ∣ rFor.1 → s.last_tested < q := by
        intro q hqp hqd
        by_contra hle
        push_neg at hle
        have hq2 : q ≠ 2 := by
          intro h2
          subst h2
          exact end2 (hqd.trans c2)
        have hqodd : q % 2 = 1 := by
          rcases hqp.eq_two_or_odd with h | h
          · exact absurd h hq2
          · exact h
        have hmem : q ∈ s.odd_primes_list := by
          rw [hinv.2.2.1]
          exact mem_oddPrimesUpTo.mpr ⟨hqp, hqodd, hle⟩
        rcases c4 with hc | hc
        · rw [hc] at hqd
          have hd1 := Nat.dvd_one.mp hqd
          have hd2 := hqp.two_le
          omega
        · exact absurd hqd (hc q hmem)
      have hfuelOK : rFor.1 + (rFor.1.minFac - s.last_tested) ≤ 2 * rFor.1 + 1 := by
        have := Nat.minFac_le (show 0 < rFor.1 by omega)
        omega
      obtain ⟨d1, d2, d3, d4, d5⟩ :=
        factorOuter_spec rFor.1 rFor.1 s.odd_primes_list.length s rFor.2
          hinv c1 hqbig (fun _ => rfl) hfuelOK
      set rOut := factorOuter rFor.1 rFor.1 s.odd_primes_list.length s rFor.2 with hrOut
      have hd5hyp : (∀ pe ∈ rFor.2, pe.1.Prime ∧ 1 ≤ pe.2) ∧
          rFor.2.Pairwise (fun x y => x.1 < y.1) ∧
          (∀ pe ∈ rFor.2, pe.1 ≤ s.last_tested) := by
        refine ⟨fun pe hpe => ⟨(f1 pe hpe).1, (f1 pe hpe).2.1⟩, f2, ?_⟩
        intro pe hpe
        rcases f3 pe hpe with h | h
        · obtain ⟨hx1, -, -⟩ := hfacs0good pe h
          have := hinv.2.1
          omega
        · exact (hlistodd pe.1 h).2
      obtain ⟨g1, g2, g3⟩ := d5 hd5hyp
      refine ⟨rOut.2.2, rfl, d2, ?_, fun pe hpe => g1 pe hpe, g2⟩
      rw [d4, c3, hprod0]

/-! ## Exact division and divisor counts from a factor list -/

theorem prodPairs_cons (x : Nat × Nat) (rest : List (Nat × Nat)) :
    prodPairs (x :: rest) = x.1 ^ x.2 * prodPairs rest := by
  unfold prodPairs
  simp

/-- A prime different from all the (prime) keys of a factor list does not
divide its product. -/
theorem not_dvd_prodPairs {q : Nat} (hq : q.Prime) :
    ∀ l : List (Nat × Nat), (∀ pe ∈ l, pe.1.Prime ∧ pe.1 ≠ q) →
      ¬ q ∣ prodPairs l := by
  intro l
  induction l with
  | nil =>
    intro _ hd
    have h1 : q = 1 := Nat.dvd_one.mp hd
    have h2 := hq.two_le
    omega
  | cons pe rest ih =>
    intro hl hd
    rw [prodPairs_cons] at hd
    rcases (Nat.Prime.dvd_mul hq).mp hd with hdd | hdd
    · have hq1 : q ∣ pe.1 := hq.dvd_of_dvd_pow hdd
      obtain ⟨hp1, hp2⟩ := hl pe (List.mem_cons_self pe rest)
      exact hp2 ((Nat.prime_dvd_prime_iff_eq hq hp1).mp hq1).symm
    · exact ih (fun x hx => hl x (List.mem_cons_of_mem _ hx)) hdd

/-- Each prime power of a factor list with distinct ascending prime keys
divides the product exactly. -/
theorem prodPairs_exact :
    ∀ l : List (Nat × Nat),
      (∀ pe ∈ l, pe.1.Prime ∧ 1 ≤ pe.2) →
      l.Pairwise (fun x y => x.1 < y.1) →
      ∀ pe ∈ l, pe.1 ^ pe.2 ∣ prodPairs l ∧ ¬ pe.1 ^ (pe.2 + 1) ∣ prodPairs l := by
  intro l
  induction l with
  | nil =>
    intro _ _ pe hpe
    cases hpe
  | cons x rest ih =>
    intro hl hp pe hpe
    have hxprime : x.1.Prime := (hl x (List.mem_cons_self x rest)).1
    rcases List.mem_cons.mp hpe with rfl | hpe'
    · constructor
      · rw [prodPairs_cons]
        exact dvd_mul_right _ _
      · rw [prodPairs_cons]
        intro hd
        have hnd : ¬ pe.1 ∣ prodPairs rest := by
          apply not_dvd_prodPairs hxprime
          intro y hy
          refine ⟨(hl y (List.mem_cons_of_mem _ hy)).1, ?_⟩
          have := (List.pairwise_cons.mp hp).1 y hy
          omega
        rw [pow_succ] at hd
        have hpos : pe.1 ^ pe.2 ≠ 0 := Nat.pos_iff_ne_zero.mp (pow_pos hxprime.pos _)
        exact hnd ((mul_dvd_mul_iff_left hpos).mp hd)
    · have hrest := ih (fun y hy => hl y (List.mem_cons_of_mem _ hy))
        hp.of_cons pe hpe'
      constructor
      · rw [prodPairs_cons]
        exact hrest.1.mul_left _
      · rw [prodPairs_cons]
        intro hd
        have hpene : pe.1 ≠ x.1 := by
          have := (List.pairwise_cons.mp hp).1 pe hpe'
          omega
        have hpeprime : pe.1.Prime := (hl pe (List.mem_cons_of_mem _ hpe')).1
        have hcop : Nat.Coprime (pe.1 ^ (pe.2 + 1)) (x.1 ^ x.2) :=
          Nat.Coprime.pow _ _ ((Nat.coprime_primes hpeprime hxprime).mpr hpene)
        exact hrest.2 (hcop.dvd_of_dvd_mul_left hd)

/-- The number of divisors of the product of a factor list with distinct
prime keys is the product of `e + 1`. -/
theorem card_divisors_prodPairs :
    ∀ l : List (Nat × Nat),
      (∀ pe ∈ l, pe.1.Prime ∧ 1 ≤ pe.2) →
      l.Pairwise (fun x y => x.1 < y.1) →
      (prodPairs l).divisors.card = (l.map fun pe => pe.2 + 1).prod := by
  intro l
  induction l with
  | nil =>
    intro _ _
    show (Nat.divisors 1).card = 1
    rw [Nat.divisors_one]
    rfl
  | cons x rest ih =>
    intro hl hp
    have hxprime : x.1.Prime := (hl x (List.mem_cons_self x rest)).1
    have hnd : ¬ x.1 ∣ prodPairs rest := by
      apply not_dvd_prodPairs hxprime
      intro y hy
      refine ⟨(hl y (List.mem_cons_of_mem _ hy)).1, ?_⟩
      have := (List.pairwise_cons.mp hp).1 y hy
      omega
    have hcop : Nat.Coprime (x.1 ^ x.2) (prodPairs rest) :=
      Nat.Coprime.pow_left _ ((Nat.Prime.coprime_iff_not_dvd hxprime).mpr hnd)
    rw [prodPairs_cons, hcop.card_divisors_mul,
      ih (fun y hy => hl y (List.mem_cons_of_mem _ hy)) hp.of_cons,
      Nat.divisors_prime_pow hxprime, Finset.card_map, Finset.card_range,
      List.map_cons, List.prod_cons]

/-! ## The claims -/

/-- C1: for every nonzero integer `n`, `multiply(factor_slow(n)) == n`;
for `n = 0`, `factor_slow` returns the zero sentinel and `multiply`
applied to that sentinel returns 0. -/
theorem C1_multiply_factor_roundtrip (s : SieveState) (h : SieveInv s) (n : Int) :
    (Primes.factor_slow s 0).1 = Factorization.zero ∧
    Primes.multiply Factorization.zero = 0 ∧
    (n ≠ 0 → Primes.multiply (Primes.factor_slow s n).1 = n) := by
  refine ⟨by simp [Primes.factor_slow], rfl, ?_⟩
  intro hn
  obtain ⟨l, hl, -, hprod, -, -⟩ := factor_slow_spec h n hn
  rw [hl, multiply_of_eq, hprod]
  by_cases hpos : 0 < n
  · rw [if_pos hpos, one_mul]
    omega
  · rw [if_neg hpos]
    omega

theorem C1_witness :
    SieveInv initState ∧ (360 : Int) ≠ 0 ∧
      Primes.multiply (Primes.factor_slow initState 360).1 = 360 :=
  ⟨by decide, by decide,
    (C1_multiply_factor_roundtrip initState (by decide) 360).2.2 (by decide)⟩

/-- C4: for every nonzero integer `n`, `factor_slow(n)` consists of the
unit `+1` (for `n > 0`) or `-1` (for `n < 0`) followed by pairs
`[p, e]` whose `p` are positive primes in strictly ascending order and
whose exponents satisfy `e ≥ 1` with `p^e` dividing `n` exactly; for
`n = 0` the distinct sentinel is returned instead of a list. -/
theorem C4_factor_slow_shape (s : SieveState) (h : SieveInv s) (n : Int)
    (hn : n ≠ 0) :
    (Primes.factor_slow s 0).1 = Factorization.zero ∧
    ∃ l, (Primes.factor_slow s n).1 =
        Factorization.of (if 0 < n then 1 else -1) l ∧
      (∀ pe ∈ l, pe.1.Prime ∧ 1 ≤ pe.2 ∧
        pe.1 ^ pe.2 ∣ n.natAbs ∧ ¬ pe.1 ^ (pe.2 + 1) ∣ n.natAbs) ∧
      l.Pairwise (fun x y => x.1 < y.1) := by
  refine ⟨by simp [Primes.factor_slow], ?_⟩
  obtain ⟨l, hl, -, hprod, hpe, hpw⟩ := factor_slow_spec h n hn
  refine ⟨l, hl, ?_, hpw⟩
  intro pe hmem
  obtain ⟨h1, h2⟩ := hpe pe hmem
  obtain ⟨hd, hnd⟩ := prodPairs_exact l hpe hpw pe hmem
  rw [hprod] at hd hnd
  exact ⟨h1, h2, hd, hnd⟩

theorem C4_witness :
    SieveInv initState ∧ (360 : Int) ≠ 0 ∧
      ((Primes.factor_slow initState 0).1 = Factorization.zero ∧
        ∃ l, (Primes.factor_slow initState 360).1 =
            Factorization.of (if 0 < (360 : Int) then 1 else -1) l ∧
          (∀ pe ∈ l, pe.1.Prime ∧ 1 ≤ pe.2 ∧
            pe.1 ^ pe.2 ∣ (360 : Int).natAbs ∧
            ¬ pe.1 ^ (pe.2 + 1) ∣ (360 : Int).natAbs) ∧
          l.Pairwise (fun x y => x.1 < y.1)) :=
  ⟨by decide, by decide, C4_factor_slow_shape initState (by decide) 360 (by decide)⟩

/-- C9: for every nonzero integer, the progressive golden-ratio
sieve-growth loop of `factor_slow` terminates with the remaining
cofactor equal to 1; an iteration budget equal to the cofactor `a`
entering the loop suffices.  The hypotheses are exactly the state of
affairs when the loop is entered: no prime known to the sieve divides
the remaining cofactor, and `m` points past the end of the list. -/
theorem C9_factor_loop_terminates (s : SieveState) (h : SieveInv s)
    (a m : Nat) (facs : List (Nat × Nat)) (ha : 1 ≤ a)
    (hq : ∀ q, q ≤ s.last_tested → q.Prime → ¬ q ∣ a)
    (hm : 1 < a → m = s.odd_primes_list.length) :
    (factorOuter a a m s facs).1 = 1 := by
  have hq' : ∀ q : Nat, q.Prime → q ∣ a → s.last_tested < q := by
    intro q hp hd
    by_contra hle
    push_neg at hle
    exact hq q hle hp hd
  have hfuel : a + (a.minFac - s.last_tested) ≤ 2 * a + 1 := by
    have := Nat.minFac_le (show 0 < a by omega)
    omega
  exact (factorOuter_spec a a m s facs h ha hq' hm hfuel).1

theorem C9_witness :
    SieveInv initState ∧ (factorOuter 11 11 3 initState []).1 = 1 :=
  ⟨by decide, C9_factor_loop_terminates initState (by decide) 11 3 []
    (by decide) (by decide) (fun _ => by decide)⟩

/-- C2: the sieve state invariant — `small_primes_set` is `{2}` together
with every odd prime up to `last_tested`, `odd_primes_list` is the
ascending list of those odd primes, no composite is in either — holds
initially and is preserved by every `sieve(stop)` call. -/
theorem C2_sieve_invariant (s : SieveState) (h : SieveInv s) (stop : Int) :
    SieveInv initState ∧
    SieveInv (Primes.sieve stop s) ∧
    (∀ p : Nat, p ∈ (Primes.sieve stop s).small_primes_set ↔
      p = 2 ∨ (p.Prime ∧ p % 2 = 1 ∧ p ≤ (Primes.sieve stop s).last_tested)) ∧
    (Primes.sieve stop s).odd_primes_list =
      oddPrimesUpTo (Primes.sieve stop s).last_tested ∧
    (Primes.sieve stop s).odd_primes_list.Pairwise (· < ·) ∧
    (∀ p : Nat, p.Prime → p ≤ (Primes.sieve stop s).last_tested →
      p ∈ (Primes.sieve stop s).small_primes_set) ∧
    (∀ p ∈ (Primes.sieve stop s).small_primes_set, p.Prime) := by
  have h2 := sieve_inv h stop
  refine ⟨by decide, h2, fun p => h2.mem_set_iff, h2.2.2.1, ?_,
    fun p hp hle => h2.prime_mem_set hp hle,
    fun p hp => (h2.mem_set_prime hp).1⟩
  rw [h2.2.2.1]
  exact oddPrimesUpTo_pairwise _

theorem C2_witness : SieveInv initState ∧ SieveInv (Primes.sieve 23 initState) :=
  ⟨by decide, (C2_sieve_invariant initState (by decide) 23).2.1⟩

/-- C8 as stated is false: a negative stop value whose absolute value
exceeds `last_tested` is not a no-op, because `sieve` only
short-circuits on `stop == 0` and otherwise takes `abs(stop)`.
Concretely, `sieve(-11)` from the initial state extends the table. -/
theorem C8_counterexample : Primes.sieve (-11) initState ≠ initState := by
  intro hEq
  have h0 : ((-11 : Int)).natAbs = 11 := rfl
  have h1 := sieve_last_ge (by decide : (-11 : Int) ≠ 0) initState
  rw [h0, hEq] at h1
  exact absurd h1 (by decide)

/-- C8, amended: `sieve(stop)` is a no-op exactly on the inputs the
code short-circuits or immediately fails the loop guard on: `stop = 0`,
or `|stop| ≤ last_tested` (already covered).  A negative stop with
`|stop| > last_tested` does sieve, to `|stop|`. -/
theorem C8_sieve_noop (s : SieveState) (stop : Int)
    (h : stop = 0 ∨ stop.natAbs ≤ s.last_tested) :
    Primes.sieve stop s = s := by
  unfold Primes.sieve
  rcases h with rfl | hle
  · rw [if_pos rfl]
  · split
    · rfl
    · rw [sieveLoop_eq, if_neg (by omega)]

theorem C8_witness : Primes.sieve (-9) initState = initState :=
  C8_sieve_noop initState (-9) (Or.inr (by decide))

/-- C10: with sieving disabled, `is_prime`, `is_irreducible` and
`is_composite` leave the shared sieve state completely unchanged:
classification is a pure query. -/
theorem C10_no_sieve_pure (s : SieveState) (n : Int) :
    (Primes.is_irreducible s n false).2 = s ∧
    (Primes.is_prime s n false).2 = s ∧
    (Primes.is_composite s n false).2 = s := by
  have h1 : (Primes.is_irreducible s n false).2 = s := rfl
  have h2 : (Primes.is_prime s n false).2 = s := by
    unfold Primes.is_prime
    split
    · rfl
    · exact h1
  refine ⟨h1, h2, ?_⟩
  unfold Primes.is_composite
  split
  · rfl
  · exact h2

/-- C6 as stated is false at `k = 0`: `sigma` tests `k == 0` before
`n == 0` and delegates to `d`, so `sigma(0, 0) = d(0) = float("inf")`,
not the NaN sentinel. -/
theorem C6_counterexample : (Primes.sigma initState 0 0).1 ≠ NumVal.nan := by
  have h : (Primes.sigma initState 0 0).1 = NumVal.inf := rfl
  rw [h]
  decide

/-- C6, amended: for `n = 0`, `sigma(0, k)` returns the NaN sentinel
(a value distinct from 0 and from `+∞`) for every exponent `k ≠ 0`; for
`k = 0` the `k == 0` test fires first and `sigma(0, 0) = d(0) = +∞`. -/
theorem C6_sigma_at_zero (s : SieveState) (k : Nat) (hk : k ≠ 0) :
    (Primes.sigma s 0 k).1 = NumVal.nan ∧
    NumVal.nan ≠ NumVal.int 0 ∧ NumVal.nan ≠ NumVal.inf ∧
    (Primes.sigma s 0 0).1 = NumVal.inf := by
  refine ⟨?_, by decide, by decide, rfl⟩
  unfold Primes.sigma
  rw [if_neg hk, if_pos rfl]

theorem C6_witness :
    (1 : Nat) ≠ 0 ∧ (Primes.sigma initState 0 1).1 = NumVal.nan :=
  ⟨by decide, (C6_sigma_at_zero initState 1 (by decide)).1⟩

/-- C7: the registration-time validation of the `multiplicative`
decorator.  The claim (and the decorator's own docstring) says
`zero = float("nan")` is legal, but the membership test
`zero in {0, float("inf"), float("nan")}` compares with `==`, and a
fresh NaN is equal to nothing — not even the NaN in the set — so
registration with the documented value `float("nan")` raises
`ValueError`.  The other documented conventions are accepted. -/
theorem C7_nan_rejected :
    multiplicative (-1) NumVal.nan =
      Except.error "The value at 0 should be zero, infinite, or undefined" ∧
    pyEq NumVal.nan NumVal.nan = false ∧
    multiplicative (-1) (NumVal.int 0) = Except.ok () ∧
    multiplicative (-1) NumVal.inf = Except.ok () ∧
    multiplicative 0 (NumVal.int 0) = Except.ok () ∧
    multiplicative 1 (NumVal.int 0) = Except.ok () ∧
    multiplicative 2 (NumVal.int 0) =
      Except.error "The value at -1 should be -1, 0 or 1" :=
  ⟨rfl, rfl, rfl, rfl, rfl, rfl, rfl⟩

/-- C5: `d(0) = +∞`; `d(1) = d(-1) = 1`; for positive `n`, `d(n)` is
the number of divisors of `n` in `[1, n]` (which is what
`Nat.divisors` enumerates); and for `|n| > 1`, `d(n)` is the product
of `eᵢ + 1` over the exponents of the prime factorization of `|n|`. -/
theorem C5_d_correct (s : SieveState) (h : SieveInv s) (n : Int) :
    (Primes.d s 0).1 = NumVal.inf ∧
    (Primes.d s 1).1 = NumVal.int 1 ∧
    (Primes.d s (-1)).1 = NumVal.int 1 ∧
    (0 < n → (Primes.d s n).1 = NumVal.int (n.natAbs.divisors.card : Int)) ∧
    (1 < n.natAbs →
      (Primes.d s n).1 =
        NumVal.int ((n.natAbs.factorization.prod fun _ k => k + 1 : Nat) : Int)) := by
  have hcast : ∀ l' : List (Nat × Nat),
      (l'.map fun pe => (pe.2 + 1 : Int)).prod =
        (((l'.map fun pe => pe.2 + 1).prod : Nat) : Int) := by
    intro l'
    induction l' with
    | nil => simp
    | cons x xs ih =>
      simp only [List.map_cons, List.prod_cons, ih]
      push_cast
      ring
  have key : ∀ m : Int, 1 < m.natAbs →
      (Primes.d s m).1 = NumVal.int (m.natAbs.divisors.card : Int) := by
    intro m hm
    have hm0 : m ≠ 0 := by
      intro h0
      rw [h0] at hm
      simp at hm
    unfold Primes.d
    rw [if_neg hm0, if_neg (by omega : ¬ m.natAbs = 1)]
    have hnz : (m.natAbs : Int) ≠ 0 := Int.natCast_ne_zero.mpr (by omega)
    obtain ⟨l, hl, -, hprod, hpe, hpw⟩ := factor_slow_spec h (m.natAbs : Int) hnz
    dsimp only
    rw [hl]
    have hcard : (prodPairs l).divisors.card = (l.map fun pe => pe.2 + 1).prod :=
      card_divisors_prodPairs l hpe hpw
    rw [Int.natAbs_ofNat] at hprod
    show NumVal.int (l.foldl (fun acc pe => acc * (pe.2 + 1 : Int)) 1) = _
    rw [foldl_mul_eq (fun pe : Nat × Nat => (pe.2 + 1 : Int)), one_mul, hcast,
      ← hcard, hprod]
  refine ⟨rfl, rfl, rfl, ?_, ?_⟩
  · intro hpos
    by_cases hone : n.natAbs = 1
    · have hn1 : n = 1 := by omega
      subst hn1
      rfl
    · have h2 : 1 < n.natAbs := by
        have : n.natAbs ≠ 0 := by omega
        omega
      rw [key n h2]
  · intro h2
    rw [key n h2]
    congr 1
    rw [Nat.card_divisors (by omega : n.natAbs ≠ 0),
      Nat.prod_factorization_eq_prod_primeFactors]

theorem C5_witness :
    SieveInv initState ∧ (0 : Int) < 6 ∧
      (Primes.d initState 6).1 = NumVal.int ((6 : Int).natAbs.divisors.card : Int) :=
  ⟨by decide, by decide, (C5_d_correct initState (by decide) 6).2.2.2.1 (by decide)⟩

/-- C3: with sieving disabled, `is_irreducible(n, sieve=False)` returns
the `Maybe` value exactly when `last_tested² ≤ |n|` and no prime in the
table divides `n`; in every other case it returns an exact boolean,
`True` iff `|n|` is prime. -/
theorem C3_is_irreducible_no_sieve (s : SieveState) (h : SieveInv s) (n : Int) :
    ((Primes.is_irreducible s n false).1 = Ternary.maybe ↔
      (s.last_tested * s.last_tested ≤ n.natAbs ∧
        ∀ p ∈ s.small_primes_set, ¬ p ∣ n.natAbs)) ∧
    ((Primes.is_irreducible s n false).1 ≠ Ternary.maybe →
      ((Primes.is_irreducible s n false).1 = Ternary.yes ↔ n.natAbs.Prime)) := by
  have h9 : 9 ≤ s.last_tested := h.2.1
  have h99 : 9 * s.last_tested ≤ s.last_tested * s.last_tested :=
    Nat.mul_le_mul (by omega) (le_refl _)
  set m := n.natAbs with hmdef
  have hres : (Primes.is_irreducible s n false).1 =
      (if m ∈ s.small_primes_set then Ternary.yes
       else if m ≤ s.last_tested then Ternary.no
       else if m % 2 = 0 then Ternary.no
       else if s.odd_primes_list.any (fun p => decide (m % p = 0)) then Ternary.no
       else if m < s.last_tested * s.last_tested then Ternary.yes
       else Ternary.maybe) := rfl
  rw [hres]
  by_cases hmem : m ∈ s.small_primes_set
  · rw [if_pos hmem]
    obtain ⟨hmp, hmle⟩ := h.mem_set_prime hmem
    constructor
    · constructor
      · intro hx
        exact absurd hx (by decide)
      · rintro ⟨-, hall⟩
        exact absurd dvd_rfl (hall m hmem)
    · exact fun _ => ⟨fun _ => hmp, fun _ => rfl⟩
  · rw [if_neg hmem]
    by_cases hle : m ≤ s.last_tested
    · rw [if_pos hle]
      have hnp : ¬ m.Prime := fun hp => hmem (h.prime_mem_set hp hle)
      constructor
      · constructor
        · intro hx
          exact absurd hx (by decide)
        · rintro ⟨hsq, -⟩
          exfalso
          omega
      · rintro -
        exact ⟨fun hx => absurd hx (by decide), fun hp => absurd hp hnp⟩
    · rw [if_neg hle]
      push_neg at hle
      by_cases heven : m % 2 = 0
      · rw [if_pos heven]
        have h2m : (2 : Nat) ∣ m := Nat.dvd_of_mod_eq_zero heven
        have h2mem : (2 : Nat) ∈ s.small_primes_set :=
          h.prime_mem_set Nat.prime_two (by omega)
        have hnp : ¬ m.Prime := by
          intro hp
          rcases hp.eq_one_or_self_of_dvd 2 h2m with h1 | h1
          · omega
          · omega
        constructor
        · constructor
          · intro hx
            exact absurd hx (by decide)
          · rintro ⟨-, hall⟩
            exact absurd h2m (hall 2 h2mem)
        · rintro -
          exact ⟨fun hx => absurd hx (by decide), fun hp => absurd hp hnp⟩
      · rw [if_neg heven]
        by_cases hany : (s.odd_primes_list.any fun p => decide (m % p = 0)) = true
        · rw [if_pos hany]
          simp only [List.any_eq_true, decide_eq_true_eq] at hany
          obtain ⟨p, hpl, hpd⟩ := hany
          rw [h.2.2.1] at hpl
          obtain ⟨hpp, hpodd, hple⟩ := mem_oddPrimesUpTo.mp hpl
          have hpdvd : p ∣ m := Nat.dvd_of_mod_eq_zero hpd
          have hpmem : p ∈ s.small_primes_set := h.prime_mem_set hpp hple
          have hnp : ¬ m.Prime := by
            intro hp
            rcases hp.eq_one_or_self_of_dvd p hpdvd with h1 | h1
            · have := hpp.two_le
              omega
            · omega
          constructor
          · constructor
            · intro hx
              exact absurd hx (by decide)
            · rintro ⟨-, hall⟩
              exact absurd hpdvd (hall p hpmem)
          · rintro -
            exact ⟨fun hx => absurd hx (by decide), fun hp => absurd hp hnp⟩
        · rw [if_neg hany]
          have hnodvd : ∀ p ∈ s.odd_primes_list, ¬ p ∣ m := by
            intro p hpl hpd
            apply hany
            simp only [List.any_eq_true, decide_eq_true_eq]
            exact ⟨p, hpl, Nat.mod_eq_zero_of_dvd hpd⟩
          by_cases hsq : m < s.last_tested * s.last_tested
          · rw [if_pos hsq]
            have hmp : m.Prime := by
              by_contra hnp
              have hmf_dvd : m.minFac ∣ m := Nat.minFac_dvd m
              have hmf_prime : m.minFac.Prime := Nat.minFac_prime (by omega)
              have hmfsq : m.minFac ^ 2 ≤ m := Nat.minFac_sq_le_self (by omega) hnp
              have hmf_lt : m.minFac < s.last_tested := by
                by_contra hge
                push_neg at hge
                have hsqle : s.last_tested * s.last_tested ≤ m.minFac * m.minFac :=
                  Nat.mul_le_mul hge hge
                have hpow : m.minFac ^ 2 = m.minFac * m.minFac := pow_two _
                omega
              have hmf_ne2 : m.minFac ≠ 2 := by
                intro h2
                rw [h2] at hmf_dvd
                obtain ⟨k, hk⟩ := hmf_dvd
                omega
              have hmf_odd : m.minFac % 2 = 1 :=
                Nat.odd_iff.mp (hmf_prime.odd_of_ne_two hmf_ne2)
              have hmf_mem : m.minFac ∈ s.odd_primes_list := by
                rw [h.2.2.1]
                exact mem_oddPrimesUpTo.mpr ⟨hmf_prime, hmf_odd, by omega⟩
              exact hnodvd _ hmf_mem hmf_dvd
            constructor
            · constructor
              · intro hx
                exact absurd hx (by decide)
              · rintro ⟨hsq', -⟩
                exfalso
                omega
            · rintro -
              exact ⟨fun _ => hmp, fun _ => rfl⟩
          · rw [if_neg hsq]
            constructor
            · constructor
              · rintro -
                refine ⟨by omega, ?_⟩
                intro p hpmem hpd
                rw [h.mem_set_iff] at hpmem
                rcases hpmem with rfl | ⟨hpp, hpodd, hple⟩
                · obtain ⟨k, hk⟩ := hpd
                  omega
                · refine hnodvd p ?_ hpd
                  rw [h.2.2.1]
                  exact mem_oddPrimesUpTo.mpr ⟨hpp, hpodd, hple⟩
              · rintro -
                rfl
            · intro hx
              exact absurd rfl hx

theorem C3_witness :
    SieveInv initState ∧
      ((Primes.is_irreducible initState 529 false).1 = Ternary.maybe ↔
        (initState.last_tested * initState.last_tested ≤ (529 : Int).natAbs ∧
          ∀ p ∈ initState.small_primes_set, ¬ p ∣ (529 : Int).natAbs)) :=
  ⟨by decide, (C3_is_irreducible_no_sieve initState (by decide) 529).1⟩
